import Mathlib

/-!
# Verification of `utils::joinpoint` (src/utils/joinpoint.hh)

`joinpoint<T>` is a rendezvous primitive: every one of the `smp::count`
shards calls `value()` once; each call is forwarded to the owner shard
(`_shard`), signals the `_enter` semaphore, and then either (owner call)
waits for all `smp::count` arrival signals, invokes `_func` once, stores
the result in `_value`, and signals the `_wait` semaphore
`smp::count - 1` times, or (non-owner call) waits on `_wait` and reads
`_value`.  On generator failure the owner breaks `_wait` with the
exception instead.

All the mutable state (`_enter`, `_wait`, `_value`) lives on the owner
shard and is only touched by continuations running there, cooperatively
scheduled with no preemption inside a continuation.  We therefore embed
`value()` as a small-step transition system: a global state records the
two semaphores' unit counts, the broken flag and its exception, the
optional `_value`, an instrumentation counter of `_func` invocations,
and a program counter per shard; each transition is one continuation of
`value()` run to its next suspension point.  Each shard calls `value()`
exactly once (the caller contract assumed throughout the spec).
-/

namespace utils

/-- Outcome of one `value()` call as observed by its caller: the future
resolves with a value (`make_ready_future<T>(*_value)`), resolves
exceptionally (`make_exception_future<T>(ep)` / a broken-semaphore
exception), or the waiter's `assert(_value)` fires. -/
inductive JResult (T E : Type) where
  | ok (v : T)
  | err (e : E)
  | assertFail
deriving DecidableEq

/-- Program counter of one shard's single `value()` call, i.e. which
suspension point of the forwarded lambda the call sits at.
`start`: has not yet run (not yet signalled `_enter`);
`waitingEnter`: owner call suspended in `_enter.wait(smp::count)`;
`computing`: owner call invoked `_func`, awaiting its future;
`waitingWake`: non-owner call suspended in `_wait.wait()`;
`done r`: the call's future resolved with outcome `r`. -/
inductive PC (T E : Type) where
  | start
  | waitingEnter
  | computing
  | waitingWake
  | done (r : JResult T E)
deriving DecidableEq

/-- Global state of one `joinpoint` instance together with the N
in-flight `value()` calls (one per shard).  `arrivals` is an
instrumentation counter of `_enter.signal()` calls (it is never
decremented, unlike the semaphore's unit count `enterUnits`);
`funcCalls` counts invocations of `_func`. -/
@[ext]
structure JState (T E : Type) (N : ℕ) where
  arrivals : ℕ
  enterUnits : ℕ
  waitUnits : ℕ
  waitBroken : Bool
  brokenErr : Option E
  value : Option T
  funcCalls : ℕ
  pcs : Fin N → PC T E

/-- Is a call at its terminal program counter? -/
def isDone : PC T E → Bool
  | .done _ => true
  | _ => false

/-- Has the owner call passed the `_enter.wait(smp::count)` barrier
(so `_func` has been invoked)? -/
def phase2 : PC T E → Bool
  | .computing => true
  | .done _ => true
  | _ => false

/-- The value a successful generator run stores into `_value`. -/
def okOf : Except E T → Option T
  | .ok v => some v
  | .error _ => none

/-- The exception a failing generator run breaks `_wait` with. -/
def errOf : Except E T → Option E
  | .error e => some e
  | .ok _ => none

/-- Did the generator fail? -/
def isErr : Except E T → Bool
  | .error _ => true
  | .ok _ => false

/-- The outcome every call resolves with, given the generator's
outcome `gen`. -/
def resultOfGen : Except E T → JResult T E
  | .ok v => .ok v
  | .error e => .err e

/-- The state of a freshly constructed `joinpoint`: both semaphores at
0 (`_enter(0)`, `_wait(0)`), `_value` empty, no call started. -/
def init {T E : Type} {N : ℕ} : JState T E N :=
  { arrivals := 0
    enterUnits := 0
    waitUnits := 0
    waitBroken := false
    brokenErr := none
    value := none
    funcCalls := 0
    pcs := fun _ => .start }

/-- One scheduling step of the N in-flight `value()` calls on the owner
shard, for a `joinpoint` whose `_shard` is `owner` and whose `_func`
resolves with `gen`.  Each constructor is one continuation of
`value()` run from its entry to its next suspension point:

* `arrive i`: shard `i`'s forwarded lambda runs: `_enter.signal()`, then
  the owner call starts `_enter.wait(smp::count)` while a non-owner call
  starts `_wait.wait()`.
* `ownerResume`: the owner's `_enter.wait(smp::count)` completes (needs
  `smp::count` units, which it consumes) and the continuation invokes
  `_func()`.
* `funcDoneOk` / `funcDoneErr`: `_func`'s future resolves; on success
  `_value = std::move(v); _wait.signal(smp::count - 1)` and the owner
  call resolves with `*_value`; on failure `_wait.broken(ep)` and the
  owner call resolves exceptionally with `ep`.
* `waiterWake`: a non-owner's `_wait.wait()` completes (consumes one
  unit, impossible while broken) and the continuation runs
  `assert(_value); return make_ready_future<T>(*_value)`.
* `waiterBroken`: a non-owner's `_wait.wait()` fails because `_wait`
  was broken with exception `e`; the call resolves exceptionally. -/
inductive Step {T E : Type} {N : ℕ} (owner : Fin N) (gen : Except E T) :
    JState T E N → JState T E N → Prop where
  | arrive (s : JState T E N) (i : Fin N) (h : s.pcs i = .start) :
      Step owner gen s
        { s with
          arrivals := s.arrivals + 1
          enterUnits := s.enterUnits + 1
          pcs := Function.update s.pcs i
            (if i = owner then .waitingEnter else .waitingWake) }
  | ownerResume (s : JState T E N) (hpc : s.pcs owner = .waitingEnter)
      (hn : N ≤ s.enterUnits) :
      Step owner gen s
        { s with
          enterUnits := s.enterUnits - N
          funcCalls := s.funcCalls + 1
          pcs := Function.update s.pcs owner .computing }
  | funcDoneOk (s : JState T E N) (v : T) (hpc : s.pcs owner = .computing)
      (hg : gen = .ok v) :
      Step owner gen s
        { s with
          value := some v
          waitUnits := s.waitUnits + (N - 1)
          pcs := Function.update s.pcs owner (.done (.ok v)) }
  | funcDoneErr (s : JState T E N) (e : E) (hpc : s.pcs owner = .computing)
      (hg : gen = .error e) :
      Step owner gen s
        { s with
          waitBroken := true
          brokenErr := some e
          pcs := Function.update s.pcs owner (.done (.err e)) }
  | waiterWake (s : JState T E N) (i : Fin N) (hi : i ≠ owner)
      (hpc : s.pcs i = .waitingWake) (hb : s.waitBroken = false)
      (hu : 1 ≤ s.waitUnits) :
      Step owner gen s
        { s with
          waitUnits := s.waitUnits - 1
          pcs := Function.update s.pcs i
            (.done (match s.value with
                    | some v => .ok v
                    | none => .assertFail)) }
  | waiterBroken (s : JState T E N) (i : Fin N) (e : E) (hi : i ≠ owner)
      (hpc : s.pcs i = .waitingWake) (hb : s.waitBroken = true)
      (he : s.brokenErr = some e) :
      Step owner gen s
        { s with
          pcs := Function.update s.pcs i (.done (.err e)) }

/-- Reachability from the freshly constructed instance. -/
def Reachable {T E : Type} {N : ℕ} (owner : Fin N) (gen : Except E T)
    (s : JState T E N) : Prop :=
  Relation.ReflTransGen (Step owner gen) init s

/-- The set of shards selected by a boolean test on (shard, its pc). -/
def boolSet {T E : Type} {N : ℕ} (P : Fin N → PC T E → Bool)
    (pcs : Fin N → PC T E) : Finset (Fin N) :=
  Finset.univ.filter (fun j => P j (pcs j) = true)

/-- Test for `arrivedSet`: the call has signalled `_enter`. -/
def arrivedB : Fin N → PC T E → Bool :=
  fun _ p => match p with
  | .start => false
  | _ => true

/-- Test for `doneSet`: a finished non-owner call. -/
def doneB (owner : Fin N) : Fin N → PC T E → Bool :=
  fun j p => if j = owner then false else isDone p

/-- The shards whose call has signalled `_enter`. -/
def arrivedSet {T E : Type} {N : ℕ} (s : JState T E N) : Finset (Fin N) :=
  boolSet arrivedB s.pcs

/-- The non-owner shards whose call has finished. -/
def doneSet {T E : Type} {N : ℕ} (owner : Fin N) (s : JState T E N) :
    Finset (Fin N) :=
  boolSet (doneB owner) s.pcs

/-- The inductive invariant of the system: semaphore bookkeeping
(`arrivals` counts the arrived shards; `_enter`'s units are the arrivals
not yet consumed by the owner's wait; `_wait`'s units are the wake
signals not yet consumed by finished waiters), the owner call's
progression (it never waits on `_wait`, it has invoked `_func` exactly
once iff it passed the barrier, and only with all `N` arrivals in), and
the derived contents of `_value`, the broken flag and its exception. -/
structure Inv {T E : Type} {N : ℕ} (owner : Fin N) (gen : Except E T)
    (s : JState T E N) : Prop where
  h_arr : s.arrivals = (arrivedSet s).card
  h_enter : s.enterUnits + N * s.funcCalls = s.arrivals
  h_fc : s.funcCalls = if phase2 (s.pcs owner) = true then 1 else 0
  h_arrN : phase2 (s.pcs owner) = true → s.arrivals = N
  h_noww : s.pcs owner ≠ .waitingWake
  h_ores : ∀ r, s.pcs owner = .done r → r = resultOfGen gen
  h_nres : ∀ i, i ≠ owner → ∀ r, s.pcs i = .done r →
    isDone (s.pcs owner) = true ∧ r = resultOfGen gen
  h_val : s.value = if isDone (s.pcs owner) = true then okOf gen else none
  h_brk : s.waitBroken = (isDone (s.pcs owner) && isErr gen)
  h_berr : s.brokenErr = if s.waitBroken = true then errOf gen else none
  h_wuerr : isErr gen = true → s.waitUnits = 0
  h_wuok : isErr gen = false →
    if isDone (s.pcs owner) = true
    then s.waitUnits + (doneSet owner s).card = N - 1
    else s.waitUnits = 0 ∧ (doneSet owner s).card = 0

/-- An instrumented zero-argument callable: given the number of times the
underlying function object has been invoked so far, it returns its result
and the updated invocation count. -/
def CountedFn (T : Type) : Type := ℕ → T × ℕ

/-- The instrumentation of a pure callable `f`: each invocation yields
`f ()` and records one more call. -/
def counted {T : Type} (f : Unit → T) : CountedFn T :=
  fun n => (f (), n + 1)

/-- A ready future: what `futurize` produces for a plain, non-future
value. -/
inductive Future (T : Type) where
  | ready (v : T)
deriving DecidableEq

/-- `futurize_invoke(f)` for a plain-value callable: invoke `f` once and
wrap its result in a ready future. -/
def futurize_invoke {T : Type} (f : CountedFn T) : CountedFn (Future T) :=
  fun n => (Future.ready (f n).1, (f n).2)

/-- The generator closure built by `make_joinpoint`:
`[f = std::forward<Func>(f)] { return futurize_invoke(f); }`. -/
def make_joinpoint {T : Type} (f : CountedFn T) : CountedFn (Future T) :=
  fun n => futurize_invoke f n

/-! Concrete instances used to exercise the theorems: the owner is shard
0 of 3 (`smp::count = 3`), the generator returns 42 (spec scenario A) or
fails with "boom" (spec scenario B).  `tA0`–`tA7` is a full execution of
the success case, `tB5`–`tB7` continue `tA0`–`tA4` in the failure case
(arrival states do not depend on the generator's outcome). -/

/-- The owner shard of the concrete instances. -/
def owner3 : Fin 3 := 0

/-- Scenario A generator outcome: the constant 42. -/
def genOk : Except String ℕ := .ok 42

/-- Scenario B generator outcome: failure "boom". -/
def genErr : Except String ℕ := .error "boom"

/-- Scenario start state. -/
def tA0 : JState ℕ String 3 := init

/-- After shard 0 (the owner) arrives. -/
def tA1 : JState ℕ String 3 :=
  { tA0 with
    arrivals := tA0.arrivals + 1
    enterUnits := tA0.enterUnits + 1
    pcs := Function.update tA0.pcs 0
      (if (0 : Fin 3) = owner3 then .waitingEnter else .waitingWake) }

/-- After shard 1 arrives. -/
def tA2 : JState ℕ String 3 :=
  { tA1 with
    arrivals := tA1.arrivals + 1
    enterUnits := tA1.enterUnits + 1
    pcs := Function.update tA1.pcs 1
      (if (1 : Fin 3) = owner3 then .waitingEnter else .waitingWake) }

/-- After shard 2 arrives. -/
def tA3 : JState ℕ String 3 :=
  { tA2 with
    arrivals := tA2.arrivals + 1
    enterUnits := tA2.enterUnits + 1
    pcs := Function.update tA2.pcs 2
      (if (2 : Fin 3) = owner3 then .waitingEnter else .waitingWake) }

/-- After the owner's `_enter.wait(3)` completes and `_func` is invoked. -/
def tA4 : JState ℕ String 3 :=
  { tA3 with
    enterUnits := tA3.enterUnits - 3
    funcCalls := tA3.funcCalls + 1
    pcs := Function.update tA3.pcs owner3 .computing }

/-- Scenario A: the generator returned 42. -/
def tA5 : JState ℕ String 3 :=
  { tA4 with
    value := some 42
    waitUnits := tA4.waitUnits + (3 - 1)
    pcs := Function.update tA4.pcs owner3 (.done (.ok 42)) }

/-- Scenario A: waiter 1 woke and read `_value`. -/
def tA6 : JState ℕ String 3 :=
  { tA5 with
    waitUnits := tA5.waitUnits - 1
    pcs := Function.update tA5.pcs 1
      (.done (match tA5.value with
              | some v => .ok v
              | none => .assertFail)) }

/-- Scenario A: waiter 2 woke and read `_value`; all three calls done. -/
def tA7 : JState ℕ String 3 :=
  { tA6 with
    waitUnits := tA6.waitUnits - 1
    pcs := Function.update tA6.pcs 2
      (.done (match tA6.value with
              | some v => .ok v
              | none => .assertFail)) }

/-- Scenario B: the generator failed with "boom"; `_wait` is broken. -/
def tB5 : JState ℕ String 3 :=
  { tA4 with
    waitBroken := true
    brokenErr := some "boom"
    pcs := Function.update tA4.pcs owner3 (.done (.err "boom")) }

/-- Scenario B: waiter 1's wait failed with the broken exception. -/
def tB6 : JState ℕ String 3 :=
  { tB5 with pcs := Function.update tB5.pcs 1 (.done (.err "boom")) }

/-- Scenario B: waiter 2's wait failed; all three calls done. -/
def tB7 : JState ℕ String 3 :=
  { tB6 with pcs := Function.update tB6.pcs 2 (.done (.err "boom")) }

/-- N = 1: the single (owner) shard arrived. -/
def jp1A {T E : Type} (owner : Fin 1) : JState T E 1 :=
  { (init : JState T E 1) with
    arrivals := (init : JState T E 1).arrivals + 1
    enterUnits := (init : JState T E 1).enterUnits + 1
    pcs := Function.update (init : JState T E 1).pcs owner
      (if owner = owner then .waitingEnter else .waitingWake) }

/-- N = 1: the owner's `_enter.wait(1)` completed on its own arrival
signal alone and `_func` was invoked. -/
def jp1B {T E : Type} (owner : Fin 1) : JState T E 1 :=
  { (jp1A owner : JState T E 1) with
    enterUnits := (jp1A owner : JState T E 1).enterUnits - 1
    funcCalls := (jp1A owner : JState T E 1).funcCalls + 1
    pcs := Function.update (jp1A owner : JState T E 1).pcs owner .computing }

/-- N = 1: the generator's future resolved and so did the owner's call. -/
def jp1C {T E : Type} (owner : Fin 1) (gen : Except E T) : JState T E 1 :=
  match gen with
  | .ok v =>
    { (jp1B owner : JState T E 1) with
      value := some v
      waitUnits := (jp1B owner : JState T E 1).waitUnits + (1 - 1)
      pcs := Function.update (jp1B owner : JState T E 1).pcs owner
        (.done (.ok v)) }
  | .error e =>
    { (jp1B owner : JState T E 1) with
      waitBroken := true
      brokenErr := some e
      pcs := Function.update (jp1B owner : JState T E 1).pcs owner
        (.done (.err e)) }

/-! Canonical intermediate states of a complete schedule for an
arbitrary shard count `N`: all shards of `A` have arrived, then the
owner has consumed the barrier, then the waiters of `B` have finished.
They witness that every round can run to completion. -/

/-- The shards of `A` have arrived (executed their `_enter.signal()`);
the rest have not started. -/
def arrState {T E : Type} {N : ℕ} (owner : Fin N) (A : Finset (Fin N)) :
    JState T E N :=
  { arrivals := A.card
    enterUnits := A.card
    waitUnits := 0
    waitBroken := false
    brokenErr := none
    value := none
    funcCalls := 0
    pcs := fun i =>
      if i ∈ A then (if i = owner then .waitingEnter else .waitingWake)
      else .start }

/-- All shards arrived and the owner consumed the `_enter` barrier and
invoked `_func`. -/
def compState {T E : Type} {N : ℕ} (owner : Fin N) : JState T E N :=
  { arrivals := N
    enterUnits := 0
    waitUnits := 0
    waitBroken := false
    brokenErr := none
    value := none
    funcCalls := 1
    pcs := fun i => if i = owner then .computing else .waitingWake }

/-- The generator succeeded with `v`, the owner resolved, and the
waiters in `B` have consumed their wake signals and resolved. -/
def wakeOkState {T E : Type} {N : ℕ} (owner : Fin N) (v : T)
    (B : Finset (Fin N)) : JState T E N :=
  { arrivals := N
    enterUnits := 0
    waitUnits := N - 1 - B.card
    waitBroken := false
    brokenErr := none
    value := some v
    funcCalls := 1
    pcs := fun i =>
      if i = owner ∨ i ∈ B then .done (.ok v) else .waitingWake }

/-- The generator failed with `e`, `_wait` is broken, the owner resolved
exceptionally, and the waiters in `B` have failed out of their waits. -/
def wakeErrState {T E : Type} {N : ℕ} (owner : Fin N) (e : E)
    (B : Finset (Fin N)) : JState T E N :=
  { arrivals := N
    enterUnits := 0
    waitUnits := 0
    waitBroken := true
    brokenErr := some e
    value := none
    funcCalls := 1
    pcs := fun i =>
      if i = owner ∨ i ∈ B then .done (.err e) else .waitingWake }

theorem mem_boolSet {T E : Type} {N : ℕ} {P : Fin N → PC T E → Bool}
    {pcs : Fin N → PC T E} {j : Fin N} :
    j ∈ boolSet P pcs ↔ P j (pcs j) = true := by
  simp [boolSet]

theorem boolSet_update_congr {T E : Type} {N : ℕ} {P : Fin N → PC T E → Bool}
    {pcs : Fin N → PC T E} {i : Fin N} {p : PC T E}
    (h : P i p = P i (pcs i)) :
    boolSet P (Function.update pcs i p) = boolSet P pcs := by
  ext j
  simp only [mem_boolSet]
  rcases eq_or_ne j i with rfl | hj
  · rw [Function.update_same, h]
  · rw [Function.update_noteq hj]

theorem boolSet_update_insert {T E : Type} {N : ℕ} {P : Fin N → PC T E → Bool}
    {pcs : Fin N → PC T E} {i : Fin N} {p : PC T E}
    (hT : P i p = true) (hF : P i (pcs i) = false) :
    boolSet P (Function.update pcs i p) = insert i (boolSet P pcs) := by
  ext j
  simp only [mem_boolSet, Finset.mem_insert]
  rcases eq_or_ne j i with rfl | hj
  · rw [Function.update_same]
    simp [hT]
  · rw [Function.update_noteq hj]
    simp [hj]

theorem card_boolSet_update_insert {T E : Type} {N : ℕ}
    {P : Fin N → PC T E → Bool} {pcs : Fin N → PC T E} {i : Fin N} {p : PC T E}
    (hT : P i p = true) (hF : P i (pcs i) = false) :
    (boolSet P (Function.update pcs i p)).card = (boolSet P pcs).card + 1 := by
  rw [boolSet_update_insert hT hF, Finset.card_insert_of_not_mem]
  rw [mem_boolSet, hF]
  simp

theorem card_boolSet_le {T E : Type} {N : ℕ} {P : Fin N → PC T E → Bool}
    {pcs : Fin N → PC T E} : (boolSet P pcs).card ≤ N := by
  calc (boolSet P pcs).card ≤ (Finset.univ : Finset (Fin N)).card :=
        Finset.card_le_card (Finset.filter_subset _ _)
    _ = N := by simp

theorem boolSet_all_of_card {T E : Type} {N : ℕ} {P : Fin N → PC T E → Bool}
    {pcs : Fin N → PC T E} (h : (boolSet P pcs).card = N) (j : Fin N) :
    P j (pcs j) = true := by
  have huniv : boolSet P pcs = Finset.univ := by
    apply Finset.eq_univ_of_card
    simpa using h
  have : j ∈ boolSet P pcs := by
    rw [huniv]
    exact Finset.mem_univ j
  exact mem_boolSet.mp this

theorem not_mem_of_card_zero {T E : Type} {N : ℕ} {P : Fin N → PC T E → Bool}
    {pcs : Fin N → PC T E} (h : (boolSet P pcs).card = 0) (j : Fin N) :
    P j (pcs j) = false := by
  have hempty : boolSet P pcs = ∅ := Finset.card_eq_zero.mp h
  by_contra hne
  have : j ∈ boolSet P pcs := mem_boolSet.mpr (by
    cases hb : P j (pcs j) with
    | true => rfl
    | false => exact absurd hb hne)
  rw [hempty] at this
  exact absurd this (Finset.not_mem_empty j)

theorem isDone_imp_phase2 {T E : Type} {p : PC T E}
    (h : isDone p = true) : phase2 p = true := by
  cases p <;> simp_all [isDone, phase2]

theorem isErr_false_ok {T E : Type} {gen : Except E T}
    (h : isErr gen = false) : ∃ v, gen = .ok v := by
  cases gen with
  | ok v => exact ⟨v, rfl⟩
  | error e => simp [isErr] at h

theorem isErr_true_error {T E : Type} {gen : Except E T}
    (h : isErr gen = true) : ∃ e, gen = .error e := by
  cases gen with
  | ok v => simp [isErr] at h
  | error e => exact ⟨e, rfl⟩

/-- The invariant holds of a freshly constructed instance. -/
theorem inv_init {T E : Type} {N : ℕ} (owner : Fin N) (gen : Except E T) :
    Inv owner gen (init : JState T E N) := by
  constructor <;>
    simp [init, arrivedSet, doneSet, boolSet, arrivedB, doneB, isDone, phase2]

/-- Preservation of the invariant by an `arrive` step. -/
theorem inv_arrive {T E : Type} {N : ℕ} {owner : Fin N} {gen : Except E T}
    {s : JState T E N} (hInv : Inv owner gen s) (i : Fin N)
    (h : s.pcs i = .start) :
    Inv owner gen
      { s with
        arrivals := s.arrivals + 1
        enterUnits := s.enterUnits + 1
        pcs := Function.update s.pcs i
          (if i = owner then .waitingEnter else .waitingWake) } := by
  obtain ⟨h_arr, h_enter, h_fc, h_arrN, h_noww, h_ores, h_nres, h_val, h_brk,
    h_berr, h_wuerr, h_wuok⟩ := hInv
  set p : PC T E := if i = owner then PC.waitingEnter else PC.waitingWake
    with hp
  have hpT : arrivedB i p = true := by
    by_cases hio : i = owner <;> simp [hp, hio, arrivedB]
  have hpF : arrivedB i (s.pcs i) = false := by rw [h]; rfl
  have hpdone : isDone p = false := by
    by_cases hio : i = owner <;> simp [hp, hio, isDone]
  have hdcong : doneB owner i p = doneB owner i (s.pcs i) := by
    rcases eq_or_ne i owner with rfl | hio
    · simp [doneB]
    · simp only [doneB, if_neg hio]
      rw [hpdone, h]
      rfl
  have hph : phase2 (s.pcs owner) = false := by
    cases hph2 : phase2 (s.pcs owner) with
    | false => rfl
    | true =>
      exfalso
      have hN := h_arrN hph2
      rw [h_arr] at hN
      have hall := boolSet_all_of_card hN i
      rw [hall] at hpF
      cases hpF
  have hOldD : isDone (s.pcs owner) = false := by
    cases hd : isDone (s.pcs owner) with
    | false => rfl
    | true => simp [isDone_imp_phase2 hd] at hph
  have hOph2 : phase2 (Function.update s.pcs i p owner) = false := by
    rcases eq_or_ne i owner with rfl | hio
    · rw [Function.update_same]
      simp [hp, phase2]
    · rw [Function.update_noteq (Ne.symm hio)]
      exact hph
  have hOdone : isDone (Function.update s.pcs i p owner) = false := by
    cases hd : isDone (Function.update s.pcs i p owner) with
    | false => rfl
    | true => simp [isDone_imp_phase2 hd] at hOph2
  refine ⟨?_, ?_, ?_, ?_, ?_, ?_, ?_, ?_, ?_, ?_, ?_, ?_⟩
  · show s.arrivals + 1 = (boolSet arrivedB (Function.update s.pcs i p)).card
    rw [card_boolSet_update_insert hpT hpF]
    show s.arrivals + 1 = (arrivedSet s).card + 1
    omega
  · show s.enterUnits + 1 + N * s.funcCalls = s.arrivals + 1
    omega
  · show s.funcCalls =
      if phase2 (Function.update s.pcs i p owner) = true then 1 else 0
    rw [hOph2, h_fc, hph]
  · intro hph2'
    replace hph2' : phase2 (Function.update s.pcs i p owner) = true := hph2'
    rw [hOph2] at hph2'
    cases hph2'
  · show Function.update s.pcs i p owner ≠ .waitingWake
    rcases eq_or_ne i owner with rfl | hio
    · rw [Function.update_same]
      simp [hp]
    · rw [Function.update_noteq (Ne.symm hio)]
      exact h_noww
  · intro r hr
    exfalso
    replace hr : Function.update s.pcs i p owner = PC.done r := hr
    rw [hr] at hOdone
    simp [isDone] at hOdone
  · intro j hj r hjr
    exfalso
    replace hjr : Function.update s.pcs i p j = PC.done r := hjr
    rcases eq_or_ne j i with rfl | hji
    · rw [Function.update_same] at hjr
      by_cases hio : j = owner <;> simp [hp, hio] at hjr
    · rw [Function.update_noteq hji] at hjr
      have hodd := (h_nres j hj r hjr).1
      rw [hodd] at hOldD
      cases hOldD
  · show s.value = if isDone (Function.update s.pcs i p owner) = true
      then okOf gen else none
    rw [hOdone, h_val, hOldD]
  · show s.waitBroken = (isDone (Function.update s.pcs i p owner) && isErr gen)
    rw [hOdone, h_brk, hOldD]
  · exact h_berr
  · intro hg
    exact h_wuerr hg
  · intro hg
    have hw := h_wuok hg
    rw [hOldD] at hw
    simp only [Bool.false_eq_true, if_false] at hw
    show if isDone (Function.update s.pcs i p owner) = true
      then _ + (boolSet (doneB owner) (Function.update s.pcs i p)).card = N - 1
      else _ = 0 ∧ (boolSet (doneB owner) (Function.update s.pcs i p)).card = 0
    rw [hOdone, boolSet_update_congr hdcong]
    simp only [Bool.false_eq_true, if_false]
    exact ⟨hw.1, hw.2⟩

/-- Preservation of the invariant by an `ownerResume` step. -/
theorem inv_ownerResume {T E : Type} {N : ℕ} {owner : Fin N} {gen : Except E T}
    {s : JState T E N} (hInv : Inv owner gen s)
    (hpc : s.pcs owner = .waitingEnter) (hn : N ≤ s.enterUnits) :
    Inv owner gen
      { s with
        enterUnits := s.enterUnits - N
        funcCalls := s.funcCalls + 1
        pcs := Function.update s.pcs owner .computing } := by
  obtain ⟨h_arr, h_enter, h_fc, h_arrN, h_noww, h_ores, h_nres, h_val, h_brk,
    h_berr, h_wuerr, h_wuok⟩ := hInv
  have hph : phase2 (s.pcs owner) = false := by rw [hpc]; rfl
  have hOldD : isDone (s.pcs owner) = false := by rw [hpc]; rfl
  have hfc0 : s.funcCalls = 0 := by simp [h_fc, hph]
  have hle : s.arrivals ≤ N := by
    rw [h_arr]
    exact card_boolSet_le
  have harrN : s.arrivals = N := by
    rw [hfc0] at h_enter
    omega
  have hNewD : isDone (Function.update s.pcs owner (PC.computing : PC T E) owner)
      = false := by
    rw [Function.update_same]
    rfl
  have hNewP2 : phase2 (Function.update s.pcs owner (PC.computing : PC T E) owner)
      = true := by
    rw [Function.update_same]
    rfl
  have hacong : arrivedB owner (PC.computing : PC T E)
      = arrivedB owner (s.pcs owner) := by
    rw [hpc]
    rfl
  have hdcong : doneB owner owner (PC.computing : PC T E)
      = doneB owner owner (s.pcs owner) := by
    simp [doneB]
  refine ⟨?_, ?_, ?_, ?_, ?_, ?_, ?_, ?_, ?_, ?_, ?_, ?_⟩
  · show s.arrivals = (boolSet arrivedB (Function.update s.pcs owner .computing)).card
    rw [boolSet_update_congr hacong]
    exact h_arr
  · show s.enterUnits - N + N * (s.funcCalls + 1) = s.arrivals
    rw [hfc0] at h_enter ⊢
    have hmul : N * (0 + 1) = N := by ring
    rw [hmul]
    omega
  · show s.funcCalls + 1 =
      if phase2 (Function.update s.pcs owner PC.computing owner) = true
      then 1 else 0
    have hp2c : phase2 (PC.computing : PC T E) = true := rfl
    simp [hfc0, hp2c]
  · intro _
    exact harrN
  · show Function.update s.pcs owner PC.computing owner ≠ .waitingWake
    rw [Function.update_same]
    simp
  · intro r hr
    replace hr : Function.update s.pcs owner PC.computing owner = PC.done r := hr
    rw [Function.update_same] at hr
    cases hr
  · intro j hj r hjr
    exfalso
    replace hjr : Function.update s.pcs owner PC.computing j = PC.done r := hjr
    rw [Function.update_noteq hj] at hjr
    have hodd := (h_nres j hj r hjr).1
    rw [hodd] at hOldD
    cases hOldD
  · show s.value = if isDone (Function.update s.pcs owner PC.computing owner)
      = true then okOf gen else none
    rw [hNewD, h_val, hOldD]
  · show s.waitBroken =
      (isDone (Function.update s.pcs owner PC.computing owner) && isErr gen)
    rw [hNewD, h_brk, hOldD]
  · exact h_berr
  · intro hg
    exact h_wuerr hg
  · intro hg
    have hw := h_wuok hg
    rw [hOldD] at hw
    simp only [Bool.false_eq_true, if_false] at hw
    show if isDone (Function.update s.pcs owner PC.computing owner) = true
      then _ + (boolSet (doneB owner) (Function.update s.pcs owner PC.computing)).card = N - 1
      else _ = 0 ∧ (boolSet (doneB owner) (Function.update s.pcs owner PC.computing)).card = 0
    rw [hNewD, boolSet_update_congr hdcong]
    simp only [Bool.false_eq_true, if_false]
    exact ⟨hw.1, hw.2⟩

/-- Preservation of the invariant by a `funcDoneOk` step. -/
theorem inv_funcDoneOk {T E : Type} {N : ℕ} {owner : Fin N} {gen : Except E T}
    {s : JState T E N} (hInv : Inv owner gen s) (v : T)
    (hpc : s.pcs owner = .computing) (hg : gen = .ok v) :
    Inv owner gen
      { s with
        value := some v
        waitUnits := s.waitUnits + (N - 1)
        pcs := Function.update s.pcs owner (.done (.ok v)) } := by
  obtain ⟨h_arr, h_enter, h_fc, h_arrN, h_noww, h_ores, h_nres, h_val, h_brk,
    h_berr, h_wuerr, h_wuok⟩ := hInv
  have hph : phase2 (s.pcs owner) = true := by rw [hpc]; rfl
  have hOldD : isDone (s.pcs owner) = false := by rw [hpc]; rfl
  have hfc1 : s.funcCalls = 1 := by simp [h_fc, hph]
  have harrN : s.arrivals = N := h_arrN hph
  have hgerr : isErr gen = false := by rw [hg]; rfl
  have hw := h_wuok hgerr
  rw [hOldD] at hw
  simp only [Bool.false_eq_true, if_false] at hw
  have hNewD : isDone
      (Function.update s.pcs owner (PC.done (JResult.ok v)) owner) = true := by
    rw [Function.update_same]
    rfl
  have hNewP2 : phase2
      (Function.update s.pcs owner (PC.done (JResult.ok v)) owner) = true := by
    rw [Function.update_same]
    rfl
  have hacong : arrivedB owner (PC.done (JResult.ok v) : PC T E)
      = arrivedB owner (s.pcs owner) := by
    rw [hpc]
    rfl
  have hdcong : doneB owner owner (PC.done (JResult.ok v) : PC T E)
      = doneB owner owner (s.pcs owner) := by
    simp [doneB]
  refine ⟨?_, ?_, ?_, ?_, ?_, ?_, ?_, ?_, ?_, ?_, ?_, ?_⟩
  · show s.arrivals =
      (boolSet arrivedB (Function.update s.pcs owner (.done (.ok v)))).card
    rw [boolSet_update_congr hacong]
    exact h_arr
  · exact h_enter
  · show s.funcCalls =
      if phase2 (Function.update s.pcs owner (PC.done (JResult.ok v)) owner)
        = true then 1 else 0
    have hp2c : phase2 (PC.done (JResult.ok v) : PC T E) = true := rfl
    simp [hfc1, hp2c]
  · intro _
    exact harrN
  · show Function.update s.pcs owner (PC.done (JResult.ok v)) owner
      ≠ .waitingWake
    rw [Function.update_same]
    simp
  · intro r hr
    replace hr : Function.update s.pcs owner (PC.done (JResult.ok v)) owner
      = PC.done r := hr
    rw [Function.update_same] at hr
    injection hr with h'
    subst h'
    rw [hg]
    rfl
  · intro j hj r hjr
    exfalso
    replace hjr : Function.update s.pcs owner (PC.done (JResult.ok v)) j
      = PC.done r := hjr
    rw [Function.update_noteq hj] at hjr
    have hodd := (h_nres j hj r hjr).1
    rw [hodd] at hOldD
    cases hOldD
  · show (some v : Option T) =
      if isDone (Function.update s.pcs owner (PC.done (JResult.ok v)) owner)
        = true then okOf gen else none
    rw [hNewD, hg]
    simp [okOf]
  · show s.waitBroken =
      (isDone (Function.update s.pcs owner (PC.done (JResult.ok v)) owner)
        && isErr gen)
    rw [h_brk, hOldD, hNewD, hg]
    simp [isErr]
  · exact h_berr
  · intro hg2
    exfalso
    rw [hg] at hg2
    simp [isErr] at hg2
  · intro _
    show if isDone (Function.update s.pcs owner (PC.done (JResult.ok v)) owner)
        = true
      then s.waitUnits + (N - 1) +
        (boolSet (doneB owner) (Function.update s.pcs owner (.done (.ok v)))).card
        = N - 1
      else s.waitUnits + (N - 1) = 0 ∧
        (boolSet (doneB owner) (Function.update s.pcs owner (.done (.ok v)))).card
        = 0
    rw [hNewD, boolSet_update_congr hdcong]
    simp only [eq_self_iff_true, if_true]
    have hw2 : (boolSet (doneB owner) s.pcs).card = 0 := hw.2
    rw [hw.1, hw2]
    omega

/-- Preservation of the invariant by a `funcDoneErr` step. -/
theorem inv_funcDoneErr {T E : Type} {N : ℕ} {owner : Fin N} {gen : Except E T}
    {s : JState T E N} (hInv : Inv owner gen s) (e : E)
    (hpc : s.pcs owner = .computing) (hg : gen = .error e) :
    Inv owner gen
      { s with
        waitBroken := true
        brokenErr := some e
        pcs := Function.update s.pcs owner (.done (.err e)) } := by
  obtain ⟨h_arr, h_enter, h_fc, h_arrN, h_noww, h_ores, h_nres, h_val, h_brk,
    h_berr, h_wuerr, h_wuok⟩ := hInv
  have hph : phase2 (s.pcs owner) = true := by rw [hpc]; rfl
  have hOldD : isDone (s.pcs owner) = false := by rw [hpc]; rfl
  have hfc1 : s.funcCalls = 1 := by simp [h_fc, hph]
  have harrN : s.arrivals = N := h_arrN hph
  have hgerr : isErr gen = true := by rw [hg]; rfl
  have hNewD : isDone
      (Function.update s.pcs owner (PC.done (JResult.err e)) owner) = true := by
    rw [Function.update_same]
    rfl
  have hNewP2 : phase2
      (Function.update s.pcs owner (PC.done (JResult.err e)) owner) = true := by
    rw [Function.update_same]
    rfl
  have hacong : arrivedB owner (PC.done (JResult.err e) : PC T E)
      = arrivedB owner (s.pcs owner) := by
    rw [hpc]
    rfl
  refine ⟨?_, ?_, ?_, ?_, ?_, ?_, ?_, ?_, ?_, ?_, ?_, ?_⟩
  · show s.arrivals =
      (boolSet arrivedB (Function.update s.pcs owner (.done (.err e)))).card
    rw [boolSet_update_congr hacong]
    exact h_arr
  · exact h_enter
  · show s.funcCalls =
      if phase2 (Function.update s.pcs owner (PC.done (JResult.err e)) owner)
        = true then 1 else 0
    have hp2c : phase2 (PC.done (JResult.err e) : PC T E) = true := rfl
    simp [hfc1, hp2c]
  · intro _
    exact harrN
  · show Function.update s.pcs owner (PC.done (JResult.err e)) owner
      ≠ .waitingWake
    rw [Function.update_same]
    simp
  · intro r hr
    replace hr : Function.update s.pcs owner (PC.done (JResult.err e)) owner
      = PC.done r := hr
    rw [Function.update_same] at hr
    injection hr with h'
    subst h'
    rw [hg]
    rfl
  · intro j hj r hjr
    exfalso
    replace hjr : Function.update s.pcs owner (PC.done (JResult.err e)) j
      = PC.done r := hjr
    rw [Function.update_noteq hj] at hjr
    have hodd := (h_nres j hj r hjr).1
    rw [hodd] at hOldD
    cases hOldD
  · show s.value =
      if isDone (Function.update s.pcs owner (PC.done (JResult.err e)) owner)
        = true then okOf gen else none
    rw [h_val, hOldD, hNewD, hg]
    simp [okOf]
  · show (true : Bool) =
      (isDone (Function.update s.pcs owner (PC.done (JResult.err e)) owner)
        && isErr gen)
    rw [hNewD, hg]
    simp [isErr]
  · show (some e : Option E) = if (true : Bool) = true then errOf gen else none
    rw [hg]
    simp [errOf]
  · intro _
    show s.waitUnits = 0
    exact h_wuerr hgerr
  · intro hg2
    exfalso
    rw [hg] at hg2
    simp [isErr] at hg2

/-- Preservation of the invariant by a `waiterWake` step. -/
theorem inv_waiterWake {T E : Type} {N : ℕ} {owner : Fin N} {gen : Except E T}
    {s : JState T E N} (hInv : Inv owner gen s) (i : Fin N) (hi : i ≠ owner)
    (hpc : s.pcs i = .waitingWake) (hb : s.waitBroken = false)
    (hu : 1 ≤ s.waitUnits) :
    Inv owner gen
      { s with
        waitUnits := s.waitUnits - 1
        pcs := Function.update s.pcs i
          (.done (match s.value with
                  | some v => .ok v
                  | none => .assertFail)) } := by
  obtain ⟨h_arr, h_enter, h_fc, h_arrN, h_noww, h_ores, h_nres, h_val, h_brk,
    h_berr, h_wuerr, h_wuok⟩ := hInv
  set m : JResult T E :=
    match s.value with
    | some v => JResult.ok v
    | none => JResult.assertFail
    with hmdef
  have hgerr : isErr gen = false := by
    cases hge : isErr gen with
    | false => rfl
    | true =>
      have h0 := h_wuerr hge
      omega
  obtain ⟨v, hg⟩ := isErr_false_ok hgerr
  have hw := h_wuok hgerr
  have hOd : isDone (s.pcs owner) = true := by
    cases hd : isDone (s.pcs owner) with
    | true => rfl
    | false =>
      rw [hd] at hw
      simp only [Bool.false_eq_true, if_false] at hw
      omega
  rw [hOd] at hw
  simp only [eq_self_iff_true, if_true] at hw
  have hval : s.value = some v := by
    rw [h_val, hOd, hg]
    simp [okOf]
  have hm : m = JResult.ok v := by
    rw [hmdef, hval]
  have hOwnerNe : owner ≠ i := Ne.symm hi
  have hacong : arrivedB i (PC.done m) = arrivedB i (s.pcs i) := by
    rw [hpc]
    rfl
  have hdT : doneB owner i (PC.done m) = true := by
    simp only [doneB, if_neg hi]
    rfl
  have hdF : doneB owner i (s.pcs i) = false := by
    simp only [doneB, if_neg hi]
    rw [hpc]
    rfl
  refine ⟨?_, ?_, ?_, ?_, ?_, ?_, ?_, ?_, ?_, ?_, ?_, ?_⟩
  · show s.arrivals = (boolSet arrivedB (Function.update s.pcs i (.done m))).card
    rw [boolSet_update_congr hacong]
    exact h_arr
  · exact h_enter
  · show s.funcCalls =
      if phase2 (Function.update s.pcs i (PC.done m) owner) = true then 1 else 0
    rw [Function.update_noteq hOwnerNe]
    exact h_fc
  · intro hp2
    replace hp2 : phase2 (Function.update s.pcs i (PC.done m) owner) = true := hp2
    rw [Function.update_noteq hOwnerNe] at hp2
    exact h_arrN hp2
  · show Function.update s.pcs i (PC.done m) owner ≠ .waitingWake
    rw [Function.update_noteq hOwnerNe]
    exact h_noww
  · intro r hr
    replace hr : Function.update s.pcs i (PC.done m) owner = PC.done r := hr
    rw [Function.update_noteq hOwnerNe] at hr
    exact h_ores r hr
  · intro j hj r hjr
    replace hjr : Function.update s.pcs i (PC.done m) j = PC.done r := hjr
    rcases eq_or_ne j i with rfl | hji
    · rw [Function.update_same] at hjr
      injection hjr with h2
      constructor
      · show isDone (Function.update s.pcs j (PC.done m) owner) = true
        rw [Function.update_noteq hOwnerNe]
        exact hOd
      · rw [← h2, hm, hg]
        rfl
    · rw [Function.update_noteq hji] at hjr
      have hold := h_nres j hj r hjr
      constructor
      · show isDone (Function.update s.pcs i (PC.done m) owner) = true
        rw [Function.update_noteq hOwnerNe]
        exact hold.1
      · exact hold.2
  · show s.value = if isDone (Function.update s.pcs i (PC.done m) owner) = true
      then okOf gen else none
    rw [Function.update_noteq hOwnerNe]
    exact h_val
  · show s.waitBroken =
      (isDone (Function.update s.pcs i (PC.done m) owner) && isErr gen)
    rw [Function.update_noteq hOwnerNe]
    exact h_brk
  · exact h_berr
  · intro hge
    rw [hge] at hgerr
    cases hgerr
  · intro _
    show if isDone (Function.update s.pcs i (PC.done m) owner) = true
      then s.waitUnits - 1 +
        (boolSet (doneB owner) (Function.update s.pcs i (.done m))).card = N - 1
      else s.waitUnits - 1 = 0 ∧
        (boolSet (doneB owner) (Function.update s.pcs i (.done m))).card = 0
    rw [Function.update_noteq hOwnerNe, hOd]
    simp only [eq_self_iff_true, if_true]
    rw [card_boolSet_update_insert hdT hdF]
    replace hw : s.waitUnits + (boolSet (doneB owner) s.pcs).card = N - 1 := hw
    omega

/-- Preservation of the invariant by a `waiterBroken` step. -/
theorem inv_waiterBroken {T E : Type} {N : ℕ} {owner : Fin N}
    {gen : Except E T} {s : JState T E N} (hInv : Inv owner gen s) (i : Fin N)
    (e : E) (hi : i ≠ owner) (hpc : s.pcs i = .waitingWake)
    (hb : s.waitBroken = true) (he : s.brokenErr = some e) :
    Inv owner gen
      { s with pcs := Function.update s.pcs i (.done (.err e)) } := by
  obtain ⟨h_arr, h_enter, h_fc, h_arrN, h_noww, h_ores, h_nres, h_val, h_brk,
    h_berr, h_wuerr, h_wuok⟩ := hInv
  have hcomb : (isDone (s.pcs owner) && isErr gen) = true := by
    rw [← h_brk]
    exact hb
  have hOd : isDone (s.pcs owner) = true := by
    cases hd : isDone (s.pcs owner) with
    | true => rfl
    | false =>
      rw [hd] at hcomb
      simp at hcomb
  have hge : isErr gen = true := by
    cases hd : isErr gen with
    | true => rfl
    | false =>
      rw [hd] at hcomb
      simp at hcomb
  obtain ⟨e', hg⟩ := isErr_true_error hge
  have hberr2 : s.brokenErr = some e' := by
    rw [h_berr, hb, hg]
    simp [errOf]
  have hee : e = e' := by
    rw [he] at hberr2
    injection hberr2
  subst hee
  have hOwnerNe : owner ≠ i := Ne.symm hi
  have hacong : arrivedB i (PC.done (JResult.err e) : PC T E)
      = arrivedB i (s.pcs i) := by
    rw [hpc]
    rfl
  refine ⟨?_, ?_, ?_, ?_, ?_, ?_, ?_, ?_, ?_, ?_, ?_, ?_⟩
  · show s.arrivals =
      (boolSet arrivedB (Function.update s.pcs i (.done (.err e)))).card
    rw [boolSet_update_congr hacong]
    exact h_arr
  · exact h_enter
  · show s.funcCalls =
      if phase2 (Function.update s.pcs i (PC.done (JResult.err e)) owner) = true
      then 1 else 0
    rw [Function.update_noteq hOwnerNe]
    exact h_fc
  · intro hp2
    replace hp2 :
      phase2 (Function.update s.pcs i (PC.done (JResult.err e)) owner) = true :=
      hp2
    rw [Function.update_noteq hOwnerNe] at hp2
    exact h_arrN hp2
  · show Function.update s.pcs i (PC.done (JResult.err e)) owner ≠ .waitingWake
    rw [Function.update_noteq hOwnerNe]
    exact h_noww
  · intro r hr
    replace hr :
      Function.update s.pcs i (PC.done (JResult.err e)) owner = PC.done r := hr
    rw [Function.update_noteq hOwnerNe] at hr
    exact h_ores r hr
  · intro j hj r hjr
    replace hjr :
      Function.update s.pcs i (PC.done (JResult.err e)) j = PC.done r := hjr
    rcases eq_or_ne j i with rfl | hji
    · rw [Function.update_same] at hjr
      injection hjr with h2
      constructor
      · show isDone (Function.update s.pcs j (PC.done (JResult.err e)) owner)
          = true
        rw [Function.update_noteq hOwnerNe]
        exact hOd
      · rw [← h2, hg]
        rfl
    · rw [Function.update_noteq hji] at hjr
      have hold := h_nres j hj r hjr
      constructor
      · show isDone (Function.update s.pcs i (PC.done (JResult.err e)) owner)
          = true
        rw [Function.update_noteq hOwnerNe]
        exact hold.1
      · exact hold.2
  · show s.value =
      if isDone (Function.update s.pcs i (PC.done (JResult.err e)) owner) = true
      then okOf gen else none
    rw [Function.update_noteq hOwnerNe]
    exact h_val
  · show s.waitBroken =
      (isDone (Function.update s.pcs i (PC.done (JResult.err e)) owner)
        && isErr gen)
    rw [Function.update_noteq hOwnerNe]
    exact h_brk
  · exact h_berr
  · intro _
    show s.waitUnits = 0
    exact h_wuerr hge
  · intro hgf
    rw [hgf] at hge
    cases hge

/-- The invariant is preserved by every step. -/
theorem inv_step {T E : Type} {N : ℕ} {owner : Fin N} {gen : Except E T}
    {s s' : JState T E N} (hInv : Inv owner gen s)
    (hstep : Step owner gen s s') : Inv owner gen s' := by
  cases hstep with
  | arrive i h => exact inv_arrive hInv i h
  | ownerResume hpc hn => exact inv_ownerResume hInv hpc hn
  | funcDoneOk v hpc hg => exact inv_funcDoneOk hInv v hpc hg
  | funcDoneErr e hpc hg => exact inv_funcDoneErr hInv e hpc hg
  | waiterWake i hi hpc hb hu => exact inv_waiterWake hInv i hi hpc hb hu
  | waiterBroken i e hi hpc hb he =>
    exact inv_waiterBroken hInv i e hi hpc hb he

/-- Every reachable state satisfies the invariant. -/
theorem reachable_inv {T E : Type} {N : ℕ} {owner : Fin N} {gen : Except E T}
    {s : JState T E N} (hs : Reachable owner gen s) : Inv owner gen s := by
  induction hs with
  | refl => exact inv_init owner gen
  | tail _ hbc ih => exact inv_step ih hbc

theorem stepA01 : Step owner3 genOk tA0 tA1 :=
  Step.arrive tA0 0 rfl

theorem stepA12 : Step owner3 genOk tA1 tA2 :=
  Step.arrive tA1 1 (by decide)

theorem stepA23 : Step owner3 genOk tA2 tA3 :=
  Step.arrive tA2 2 (by decide)

theorem stepA34 : Step owner3 genOk tA3 tA4 :=
  Step.ownerResume tA3 (by decide) (by decide)

theorem stepA45 : Step owner3 genOk tA4 tA5 :=
  Step.funcDoneOk tA4 42 (by decide) rfl

theorem stepA56 : Step owner3 genOk tA5 tA6 :=
  Step.waiterWake tA5 1 (by decide) (by decide) (by decide) (by decide)

theorem stepA67 : Step owner3 genOk tA6 tA7 :=
  Step.waiterWake tA6 2 (by decide) (by decide) (by decide) (by decide)

theorem reachA4 : Reachable owner3 genOk tA4 :=
  .tail (.tail (.tail (.tail .refl stepA01) stepA12) stepA23) stepA34

theorem reachA5 : Reachable owner3 genOk tA5 :=
  .tail reachA4 stepA45

theorem reachA7 : Reachable owner3 genOk tA7 :=
  .tail (.tail reachA5 stepA56) stepA67

theorem rtgA57 : Relation.ReflTransGen (Step owner3 genOk) tA5 tA7 :=
  .tail (.tail .refl stepA56) stepA67

theorem stepB01 : Step owner3 genErr tA0 tA1 :=
  Step.arrive tA0 0 rfl

theorem stepB12 : Step owner3 genErr tA1 tA2 :=
  Step.arrive tA1 1 (by decide)

theorem stepB23 : Step owner3 genErr tA2 tA3 :=
  Step.arrive tA2 2 (by decide)

theorem stepB34 : Step owner3 genErr tA3 tA4 :=
  Step.ownerResume tA3 (by decide) (by decide)

theorem stepB45 : Step owner3 genErr tA4 tB5 :=
  Step.funcDoneErr tA4 "boom" (by decide) rfl

theorem stepB56 : Step owner3 genErr tB5 tB6 :=
  Step.waiterBroken tB5 1 "boom" (by decide) (by decide) (by decide) (by decide)

theorem stepB67 : Step owner3 genErr tB6 tB7 :=
  Step.waiterBroken tB6 2 "boom" (by decide) (by decide) (by decide) (by decide)

theorem reachB7 : Reachable owner3 genErr tB7 :=
  .tail (.tail (.tail (.tail (.tail (.tail (.tail .refl stepB01) stepB12)
    stepB23) stepB34) stepB45) stepB56) stepB67

theorem no_start_of_phase2 {T E : Type} {N : ℕ} {owner : Fin N}
    {gen : Except E T} {s : JState T E N} (hInv : Inv owner gen s)
    (hph : phase2 (s.pcs owner) = true) (i : Fin N) : s.pcs i ≠ .start := by
  intro hstart
  have hN := hInv.h_arrN hph
  have hcard : (boolSet arrivedB s.pcs).card = N := by
    have harr := hInv.h_arr
    rw [harr] at hN
    exact hN
  have hall := boolSet_all_of_card hcard i
  rw [hstart] at hall
  simp [arrivedB] at hall

theorem rtg_inv {T E : Type} {N : ℕ} {owner : Fin N} {gen : Except E T}
    {s s' : JState T E N} (hInv : Inv owner gen s)
    (h : Relation.ReflTransGen (Step owner gen) s s') : Inv owner gen s' := by
  induction h with
  | refl => exact hInv
  | tail _ hbc ih => exact inv_step ih hbc

theorem owner_done_step_fixed {T E : Type} {N : ℕ} {owner : Fin N}
    {gen : Except E T} {s s' : JState T E N} (hInv : Inv owner gen s)
    (hstep : Step owner gen s s') (hd : isDone (s.pcs owner) = true) :
    s'.pcs owner = s.pcs owner ∧ s'.value = s.value
    ∧ s'.waitBroken = s.waitBroken ∧ s'.brokenErr = s.brokenErr
    ∧ s'.funcCalls = s.funcCalls := by
  cases hstep with
  | arrive i h =>
    exact absurd h (no_start_of_phase2 hInv (isDone_imp_phase2 hd) i)
  | ownerResume hpc hn =>
    rw [hpc] at hd
    simp [isDone] at hd
  | funcDoneOk v hpc hg =>
    rw [hpc] at hd
    simp [isDone] at hd
  | funcDoneErr e hpc hg =>
    rw [hpc] at hd
    simp [isDone] at hd
  | waiterWake i hi hpc hb hu =>
    exact ⟨Function.update_noteq (Ne.symm hi) _ _, rfl, rfl, rfl, rfl⟩
  | waiterBroken i e hi hpc hb he =>
    exact ⟨Function.update_noteq (Ne.symm hi) _ _, rfl, rfl, rfl, rfl⟩

theorem arrState_empty {T E : Type} {N : ℕ} (owner : Fin N) :
    (arrState owner ∅ : JState T E N) = init := by
  ext i <;> simp [arrState, init]

theorem reach_arrState {T E : Type} {N : ℕ} (owner : Fin N)
    (gen : Except E T) (A : Finset (Fin N)) :
    Reachable owner gen (arrState owner A) := by
  induction A using Finset.induction_on with
  | empty =>
    rw [arrState_empty]
    exact Relation.ReflTransGen.refl
  | @insert a A ha ih =>
    have hstart : (arrState owner A : JState T E N).pcs a = .start := by
      simp [arrState, ha]
    have hstep := @Step.arrive T E N owner gen (arrState owner A) a hstart
    have heq :
        ({ (arrState owner A : JState T E N) with
          arrivals := (arrState owner A : JState T E N).arrivals + 1
          enterUnits := (arrState owner A : JState T E N).enterUnits + 1
          pcs := Function.update (arrState owner A : JState T E N).pcs a
            (if a = owner then .waitingEnter else .waitingWake) }
          : JState T E N)
        = arrState owner (insert a A) := by
      ext i
      · simp [arrState, Finset.card_insert_of_not_mem ha]
      · simp [arrState, Finset.card_insert_of_not_mem ha]
      · simp [arrState]
      · simp [arrState]
      · simp [arrState]
      · simp [arrState]
      · simp [arrState]
      · show Function.update (arrState owner A : JState T E N).pcs a
          (if a = owner then PC.waitingEnter else PC.waitingWake) i
          = (arrState owner (insert a A)).pcs i
        rcases eq_or_ne i a with rfl | hia
        · rw [Function.update_same]
          simp [arrState]
        · rw [Function.update_noteq hia]
          simp [arrState, Finset.mem_insert, hia]
    rw [heq] at hstep
    exact Relation.ReflTransGen.tail ih hstep

theorem reach_compState {T E : Type} {N : ℕ} (owner : Fin N)
    (gen : Except E T) : Reachable owner gen (compState owner) := by
  have hpc : (arrState owner (Finset.univ : Finset (Fin N))
      : JState T E N).pcs owner = .waitingEnter := by
    simp [arrState]
  have hn : N ≤ (arrState owner (Finset.univ : Finset (Fin N))
      : JState T E N).enterUnits := by
    simp [arrState]
  have hstep := @Step.ownerResume T E N owner gen
    (arrState owner Finset.univ) hpc hn
  have heq :
      ({ (arrState owner Finset.univ : JState T E N) with
        enterUnits :=
          (arrState owner Finset.univ : JState T E N).enterUnits - N
        funcCalls :=
          (arrState owner Finset.univ : JState T E N).funcCalls + 1
        pcs := Function.update
          (arrState owner Finset.univ : JState T E N).pcs owner .computing }
        : JState T E N)
      = compState owner := by
    ext i
    · simp [arrState, compState]
    · simp [arrState, compState]
    · simp [arrState, compState]
    · simp [arrState, compState]
    · simp [arrState, compState]
    · simp [arrState, compState]
    · simp [arrState, compState]
    · show Function.update (arrState owner Finset.univ : JState T E N).pcs
        owner PC.computing i = (compState owner).pcs i
      rcases eq_or_ne i owner with rfl | hio
      · rw [Function.update_same]
        simp [compState]
      · rw [Function.update_noteq hio]
        simp [arrState, compState, hio]
  rw [heq] at hstep
  exact Relation.ReflTransGen.tail (reach_arrState owner gen Finset.univ) hstep

theorem reach_wakeOkState {T E : Type} {N : ℕ} (owner : Fin N) (v : T)
    (B : Finset (Fin N)) (hB : B ⊆ Finset.univ.erase owner) :
    Reachable owner (Except.ok v : Except E T) (wakeOkState owner v B) := by
  induction B using Finset.induction_on with
  | empty =>
    have hpc : (compState owner : JState T E N).pcs owner = .computing := by
      simp [compState]
    have hstep := @Step.funcDoneOk T E N owner (Except.ok v : Except E T)
      (compState owner) v hpc rfl
    have heq :
        ({ (compState owner : JState T E N) with
          value := some v
          waitUnits := (compState owner : JState T E N).waitUnits + (N - 1)
          pcs := Function.update (compState owner : JState T E N).pcs owner
            (.done (.ok v)) } : JState T E N)
        = wakeOkState owner v ∅ := by
      ext i
      · simp [compState, wakeOkState]
      · simp [compState, wakeOkState]
      · simp [compState, wakeOkState]
      · simp [compState, wakeOkState]
      · simp [compState, wakeOkState]
      · simp [compState, wakeOkState]
      · simp [compState, wakeOkState]
      · show Function.update (compState owner : JState T E N).pcs owner
          (PC.done (JResult.ok v)) i = (wakeOkState owner v ∅).pcs i
        rcases eq_or_ne i owner with rfl | hio
        · rw [Function.update_same]
          simp [wakeOkState]
        · rw [Function.update_noteq hio]
          simp [compState, wakeOkState, hio]
    rw [heq] at hstep
    exact Relation.ReflTransGen.tail (reach_compState owner _) hstep
  | @insert b B hbB ih =>
    have hbE : b ∈ Finset.univ.erase owner := hB (Finset.mem_insert_self b B)
    have hbo : b ≠ owner := (Finset.mem_erase.mp hbE).1
    have hBsub : B ⊆ Finset.univ.erase owner := fun x hx =>
      hB (Finset.mem_insert_of_mem hx)
    have hcardlt : B.card < N - 1 := by
      have hss : B ⊂ Finset.univ.erase owner := by
        refine Finset.ssubset_iff_of_subset hBsub |>.mpr ⟨b, hbE, hbB⟩
      have hlt := Finset.card_lt_card hss
      have hce : (Finset.univ.erase owner).card = N - 1 := by
        rw [Finset.card_erase_of_mem (Finset.mem_univ owner)]
        simp
      omega
    have hpc : (wakeOkState owner v B : JState T E N).pcs b = .waitingWake := by
      simp [wakeOkState, hbo, hbB]
    have hu : 1 ≤ (wakeOkState owner v B : JState T E N).waitUnits := by
      show 1 ≤ N - 1 - B.card
      omega
    have hstep := @Step.waiterWake T E N owner (Except.ok v : Except E T)
      (wakeOkState owner v B) b hbo hpc rfl hu
    have heq :
        ({ (wakeOkState owner v B : JState T E N) with
          waitUnits := (wakeOkState owner v B : JState T E N).waitUnits - 1
          pcs := Function.update (wakeOkState owner v B : JState T E N).pcs b
            (.done (match (wakeOkState owner v B : JState T E N).value with
                    | some w => .ok w
                    | none => .assertFail)) } : JState T E N)
        = wakeOkState owner v (insert b B) := by
      ext i
      · simp [wakeOkState]
      · simp [wakeOkState]
      · show N - 1 - B.card - 1 = N - 1 - (insert b B).card
        rw [Finset.card_insert_of_not_mem hbB]
        omega
      · simp [wakeOkState]
      · simp [wakeOkState]
      · simp [wakeOkState]
      · simp [wakeOkState]
      · show Function.update (wakeOkState owner v B : JState T E N).pcs b
          (PC.done (JResult.ok v)) i = (wakeOkState owner v (insert b B)).pcs i
        rcases eq_or_ne i b with rfl | hib
        · rw [Function.update_same]
          simp [wakeOkState, Finset.mem_insert]
        · rw [Function.update_noteq hib]
          simp [wakeOkState, Finset.mem_insert, hib]
    rw [heq] at hstep
    exact Relation.ReflTransGen.tail (ih hBsub) hstep

theorem reach_wakeErrState {T E : Type} {N : ℕ} (owner : Fin N) (e : E)
    (B : Finset (Fin N)) (hB : B ⊆ Finset.univ.erase owner) :
    Reachable owner (Except.error e : Except E T) (wakeErrState owner e B) := by
  induction B using Finset.induction_on with
  | empty =>
    have hpc : (compState owner : JState T E N).pcs owner = .computing := by
      simp [compState]
    have hstep := @Step.funcDoneErr T E N owner (Except.error e : Except E T)
      (compState owner) e hpc rfl
    have heq :
        ({ (compState owner : JState T E N) with
          waitBroken := true
          brokenErr := some e
          pcs := Function.update (compState owner : JState T E N).pcs owner
            (.done (.err e)) } : JState T E N)
        = wakeErrState owner e ∅ := by
      ext i
      · simp [compState, wakeErrState]
      · simp [compState, wakeErrState]
      · simp [compState, wakeErrState]
      · simp [compState, wakeErrState]
      · simp [compState, wakeErrState]
      · simp [compState, wakeErrState]
      · simp [compState, wakeErrState]
      · show Function.update (compState owner : JState T E N).pcs owner
          (PC.done (JResult.err e)) i = (wakeErrState owner e ∅).pcs i
        rcases eq_or_ne i owner with rfl | hio
        · rw [Function.update_same]
          simp [wakeErrState]
        · rw [Function.update_noteq hio]
          simp [compState, wakeErrState, hio]
    rw [heq] at hstep
    exact Relation.ReflTransGen.tail (reach_compState owner _) hstep
  | @insert b B hbB ih =>
    have hbE : b ∈ Finset.univ.erase owner := hB (Finset.mem_insert_self b B)
    have hbo : b ≠ owner := (Finset.mem_erase.mp hbE).1
    have hBsub : B ⊆ Finset.univ.erase owner := fun x hx =>
      hB (Finset.mem_insert_of_mem hx)
    have hpc : (wakeErrState owner e B : JState T E N).pcs b
        = .waitingWake := by
      simp [wakeErrState, hbo, hbB]
    have hstep := @Step.waiterBroken T E N owner (Except.error e : Except E T)
      (wakeErrState owner e B) b e hbo hpc rfl rfl
    have heq :
        ({ (wakeErrState owner e B : JState T E N) with
          pcs := Function.update (wakeErrState owner e B : JState T E N).pcs b
            (.done (.err e)) } : JState T E N)
        = wakeErrState owner e (insert b B) := by
      ext i
      · simp [wakeErrState]
      · simp [wakeErrState]
      · simp [wakeErrState]
      · simp [wakeErrState]
      · simp [wakeErrState]
      · simp [wakeErrState]
      · simp [wakeErrState]
      · show Function.update (wakeErrState owner e B : JState T E N).pcs b
          (PC.done (JResult.err e)) i
          = (wakeErrState owner e (insert b B)).pcs i
        rcases eq_or_ne i b with rfl | hib
        · rw [Function.update_same]
          simp [wakeErrState, Finset.mem_insert]
        · rw [Function.update_noteq hib]
          simp [wakeErrState, Finset.mem_insert, hib]
    rw [heq] at hstep
    exact Relation.ReflTransGen.tail (ih hBsub) hstep

theorem exists_all_done {T E : Type} {N : ℕ} (owner : Fin N)
    (gen : Except E T) :
    ∃ t : JState T E N, Reachable owner gen t
      ∧ (∀ i, t.pcs i = .done (resultOfGen gen)) ∧ t.funcCalls = 1 := by
  cases gen with
  | ok v =>
    refine ⟨wakeOkState owner v (Finset.univ.erase owner),
      reach_wakeOkState owner v _ (fun x hx => hx), ?_, rfl⟩
    intro i
    rcases eq_or_ne i owner with rfl | hio
    · simp [wakeOkState, resultOfGen]
    · simp [wakeOkState, resultOfGen, Finset.mem_erase, hio]
  | error e =>
    refine ⟨wakeErrState owner e (Finset.univ.erase owner),
      reach_wakeErrState owner e _ (fun x hx => hx), ?_, rfl⟩
    intro i
    rcases eq_or_ne i owner with rfl | hio
    · simp [wakeErrState, resultOfGen]
    · simp [wakeErrState, resultOfGen, Finset.mem_erase, hio]

/-- C1: with each of the `N ≥ 1` shards calling `value()` exactly once,
in every reachable state `_func` has run at most once, it has run exactly
once whenever every shard's call has finished, any state in which it has
run has the full arrival count `N`, and the step that invokes it requires
`arrivals = N` beforehand, bumps the invocation count by exactly one, and
moves only the owner call (to `computing`) — so the generator runs
exactly once, only on the owner shard, and only strictly after all `N`
arrival signals, regardless of interleaving. -/
theorem generator_runs_once_after_barrier {T E : Type} {N : ℕ}
    (owner : Fin N) (gen : Except E T) (s : JState T E N)
    (hs : Reachable owner gen s) :
    s.funcCalls ≤ 1
    ∧ (1 ≤ s.funcCalls → s.arrivals = N)
    ∧ ((∀ i, isDone (s.pcs i) = true) → s.funcCalls = 1)
    ∧ (∀ s', Step owner gen s s' → s.funcCalls < s'.funcCalls →
        s.arrivals = N ∧ s'.funcCalls = s.funcCalls + 1
        ∧ s'.pcs owner = .computing
        ∧ ∀ j, j ≠ owner → s'.pcs j = s.pcs j) := by
  have hInv := reachable_inv hs
  refine ⟨?_, ?_, ?_, ?_⟩
  · rw [hInv.h_fc]
    split <;> omega
  · intro h1
    cases hph : phase2 (s.pcs owner) with
    | true => exact hInv.h_arrN hph
    | false =>
      rw [hInv.h_fc, hph] at h1
      simp at h1
  · intro hall
    have hph := isDone_imp_phase2 (hall owner)
    rw [hInv.h_fc, hph]
    rfl
  · intro s' hstep hlt
    cases hstep with
    | arrive i h =>
      replace hlt : s.funcCalls < s.funcCalls := hlt
      exact absurd hlt (lt_irrefl _)
    | ownerResume hpc hn =>
      have hph : phase2 (s.pcs owner) = false := by rw [hpc]; rfl
      have hfc0 : s.funcCalls = 0 := by simp [hInv.h_fc, hph]
      have hle : s.arrivals ≤ N := by
        rw [hInv.h_arr]
        exact card_boolSet_le
      have henter := hInv.h_enter
      rw [hfc0] at henter
      have harrN : s.arrivals = N := by omega
      refine ⟨harrN, rfl, ?_, ?_⟩
      · show Function.update s.pcs owner PC.computing owner = PC.computing
        rw [Function.update_same]
      · intro j hj
        show Function.update s.pcs owner PC.computing j = s.pcs j
        exact Function.update_noteq hj _ _
    | funcDoneOk v hpc hg =>
      replace hlt : s.funcCalls < s.funcCalls := hlt
      exact absurd hlt (lt_irrefl _)
    | funcDoneErr e hpc hg =>
      replace hlt : s.funcCalls < s.funcCalls := hlt
      exact absurd hlt (lt_irrefl _)
    | waiterWake i hi hpc hb hu =>
      replace hlt : s.funcCalls < s.funcCalls := hlt
      exact absurd hlt (lt_irrefl _)
    | waiterBroken i e hi hpc hb he =>
      replace hlt : s.funcCalls < s.funcCalls := hlt
      exact absurd hlt (lt_irrefl _)

/-- C2: when the generator succeeds with `v`, every `value()` call that
has resolved — the owner's and every waiter's — resolved with exactly
`v`; once the owner call is done the result cell holds `some v`; and a
complete schedule exists in which all `N` calls resolve with `v`.  No
caller observes a different or partial value. -/
theorem success_broadcast_identical {T E : Type} {N : ℕ} (owner : Fin N)
    (gen : Except E T) (v : T) (hgen : gen = .ok v) (s : JState T E N)
    (hs : Reachable owner gen s) :
    (∀ i r, s.pcs i = .done r → r = .ok v)
    ∧ (isDone (s.pcs owner) = true → s.value = some v)
    ∧ (∃ t : JState T E N, Reachable owner gen t
        ∧ ∀ i, t.pcs i = .done (.ok v)) := by
  have hInv := reachable_inv hs
  refine ⟨?_, ?_, ?_⟩
  · intro i r hr
    rcases eq_or_ne i owner with rfl | hio
    · have h2 := hInv.h_ores r hr
      rw [h2, hgen]
      rfl
    · have h2 := (hInv.h_nres i hio r hr).2
      rw [h2, hgen]
      rfl
  · intro hd
    rw [hInv.h_val, hd, hgen]
    simp [okOf]
  · obtain ⟨t, hr, hdall, _⟩ := exists_all_done owner gen
    refine ⟨t, hr, fun i => ?_⟩
    have hdi := hdall i
    rw [hgen] at hdi
    exact hdi

/-- C3: when the generator fails with `e`, every `value()` call that has
resolved — the owner's own and every waiter's — resolved exceptionally
with that same `e` (the broken `_wait` carries `some e`), the generator
is never retried (at most one invocation ever), and a complete schedule
exists in which all `N` calls fail with `e`. -/
theorem failure_broadcast_identical {T E : Type} {N : ℕ} (owner : Fin N)
    (gen : Except E T) (e : E) (hgen : gen = .error e) (s : JState T E N)
    (hs : Reachable owner gen s) :
    (∀ i r, s.pcs i = .done r → r = .err e)
    ∧ s.funcCalls ≤ 1
    ∧ (s.waitBroken = true → s.brokenErr = some e)
    ∧ (∃ t : JState T E N, Reachable owner gen t
        ∧ ∀ i, t.pcs i = .done (.err e)) := by
  have hInv := reachable_inv hs
  refine ⟨?_, ?_, ?_, ?_⟩
  · intro i r hr
    rcases eq_or_ne i owner with rfl | hio
    · have h2 := hInv.h_ores r hr
      rw [h2, hgen]
      rfl
    · have h2 := (hInv.h_nres i hio r hr).2
      rw [h2, hgen]
      rfl
  · rw [hInv.h_fc]
    split <;> omega
  · intro hb
    rw [hInv.h_berr, hb, hgen]
    simp [errOf]
  · obtain ⟨t, hr, hdall, _⟩ := exists_all_done owner gen
    refine ⟨t, hr, fun i => ?_⟩
    have hdi := hdall i
    rw [hgen] at hdi
    exact hdi

/-- C4: the write of `_value` happens before any wake signal exists and
hence before any waiter resumes: no resolved call ever resolved through
the `assert(_value)` failure, a finished waiter implies the owner call
already finished, any available `_wait` unit implies `_value` is already
filled, and on the success path every finished waiter found `_value`
filled with the generator's value. -/
theorem no_premature_observation {T E : Type} {N : ℕ} (owner : Fin N)
    (gen : Except E T) (s : JState T E N) (hs : Reachable owner gen s) :
    (∀ i r, s.pcs i = .done r → r ≠ .assertFail)
    ∧ (∀ i, i ≠ owner → isDone (s.pcs i) = true → isDone (s.pcs owner) = true)
    ∧ (1 ≤ s.waitUnits → ∃ v, gen = .ok v ∧ s.value = some v)
    ∧ (∀ v, gen = .ok v → ∀ i, i ≠ owner → isDone (s.pcs i) = true →
        s.value = some v) := by
  have hInv := reachable_inv hs
  have hres : ∀ i r, s.pcs i = .done r → r = resultOfGen gen := by
    intro i r hr
    rcases eq_or_ne i owner with rfl | hio
    · exact hInv.h_ores r hr
    · exact (hInv.h_nres i hio r hr).2
  have hdone_r : ∀ i, isDone (s.pcs i) = true → ∃ r, s.pcs i = .done r := by
    intro i hd
    cases hp : s.pcs i with
    | done r => exact ⟨r, rfl⟩
    | start =>
      rw [hp] at hd
      simp [isDone] at hd
    | waitingEnter =>
      rw [hp] at hd
      simp [isDone] at hd
    | computing =>
      rw [hp] at hd
      simp [isDone] at hd
    | waitingWake =>
      rw [hp] at hd
      simp [isDone] at hd
  refine ⟨?_, ?_, ?_, ?_⟩
  · intro i r hr
    rw [hres i r hr]
    cases gen <;> simp [resultOfGen]
  · intro i hio hd
    obtain ⟨r, hr⟩ := hdone_r i hd
    exact (hInv.h_nres i hio r hr).1
  · intro hu
    have hgerr : isErr gen = false := by
      cases hge : isErr gen with
      | false => rfl
      | true =>
        have h0 := hInv.h_wuerr hge
        omega
    obtain ⟨v, hg⟩ := isErr_false_ok hgerr
    have hw := hInv.h_wuok hgerr
    have hOd : isDone (s.pcs owner) = true := by
      cases hd : isDone (s.pcs owner) with
      | true => rfl
      | false =>
        rw [hd] at hw
        simp only [Bool.false_eq_true, if_false] at hw
        omega
    refine ⟨v, hg, ?_⟩
    rw [hInv.h_val, hOd, hg]
    simp [okOf]
  · intro v hg i hio hd
    obtain ⟨r, hr⟩ := hdone_r i hd
    have hOd := (hInv.h_nres i hio r hr).1
    rw [hInv.h_val, hOd, hg]
    simp [okOf]

/-- C5: once the instance has resolved (the owner call finished, with a
value or with the broken exception), every state reachable from there —
under the one-call-per-shard contract — keeps the identical cached
`_value`, the identical broken flag and exception, and the same
generator-invocation count: repeated reads see the same cached
value/failure and no shard can cause a fresh computation attempt. -/
theorem resolved_state_is_terminal {T E : Type} {N : ℕ} (owner : Fin N)
    (gen : Except E T) (s s' : JState T E N) (hs : Reachable owner gen s)
    (hsteps : Relation.ReflTransGen (Step owner gen) s s')
    (hd : isDone (s.pcs owner) = true) :
    s'.pcs owner = s.pcs owner ∧ s'.value = s.value
    ∧ s'.waitBroken = s.waitBroken ∧ s'.brokenErr = s.brokenErr
    ∧ s'.funcCalls = s.funcCalls := by
  induction hsteps with
  | refl => exact ⟨rfl, rfl, rfl, rfl, rfl⟩
  | @tail b c hab hbc ih =>
    have hInvb := rtg_inv (reachable_inv hs) hab
    have hdb : isDone (b.pcs owner) = true := by
      rw [ih.1]
      exact hd
    have hfix := owner_done_step_fixed hInvb hbc hdb
    exact ⟨hfix.1.trans ih.1, hfix.2.1.trans ih.2.1,
      hfix.2.2.1.trans ih.2.2.1, hfix.2.2.2.1.trans ih.2.2.2.1,
      hfix.2.2.2.2.trans ih.2.2.2.2⟩

/-- C6: with `N = 1` the owner is the only shard: its single `value()`
call arrives, its own arrival signal alone already satisfies
`_enter.wait(1)` (the semaphore holds a unit the moment it arrives, so
there is no suspension on any other shard), the generator runs, and the
call resolves with the generator's own result; the all-done state is
reached in three steps involving no other shard. -/
theorem single_shard_immediate {T E : Type} (owner : Fin 1)
    (gen : Except E T) :
    Step owner gen init (jp1A owner)
    ∧ (jp1A owner : JState T E 1).arrivals = 1
    ∧ 1 ≤ (jp1A owner : JState T E 1).enterUnits
    ∧ Step owner gen (jp1A owner) (jp1B owner)
    ∧ (jp1B owner : JState T E 1).funcCalls = 1
    ∧ Step owner gen (jp1B owner) (jp1C owner gen)
    ∧ (jp1C owner gen).pcs owner = .done (resultOfGen gen)
    ∧ Reachable owner gen (jp1C owner gen)
    ∧ (jp1C owner gen).funcCalls = 1 := by
  have h1 : Step owner gen init (jp1A owner) := Step.arrive init owner rfl
  have hpcA : (jp1A owner : JState T E 1).pcs owner = .waitingEnter := by
    show Function.update (init : JState T E 1).pcs owner
      (if owner = owner then .waitingEnter else .waitingWake) owner
      = PC.waitingEnter
    rw [Function.update_same, if_pos rfl]
  have h2 : Step owner gen (jp1A owner) (jp1B owner) :=
    Step.ownerResume (jp1A owner) hpcA (Nat.le_refl 1)
  have hpcB : (jp1B owner : JState T E 1).pcs owner = .computing := by
    show Function.update (jp1A owner : JState T E 1).pcs owner
      PC.computing owner = PC.computing
    rw [Function.update_same]
  have h3 : Step owner gen (jp1B owner) (jp1C owner gen) := by
    cases gen with
    | ok v => exact Step.funcDoneOk (jp1B owner) v hpcB rfl
    | error e => exact Step.funcDoneErr (jp1B owner) e hpcB rfl
  have hpcC : (jp1C owner gen).pcs owner = .done (resultOfGen gen) := by
    cases gen with
    | ok v =>
      show Function.update (jp1B owner : JState T E 1).pcs owner
        (PC.done (JResult.ok v)) owner = PC.done (resultOfGen (.ok v))
      rw [Function.update_same]
      rfl
    | error e =>
      show Function.update (jp1B owner : JState T E 1).pcs owner
        (PC.done (JResult.err e)) owner = PC.done (resultOfGen (.error e))
      rw [Function.update_same]
      rfl
  have hfcC : (jp1C owner gen).funcCalls = 1 := by
    cases gen with
    | ok v => rfl
    | error e => rfl
  exact ⟨h1, rfl, Nat.le_refl 1, h2, rfl, h3, hpcC,
    .tail (.tail (.tail .refl h1) h2) h3, hfcC⟩

/-- C7: on generator success, the owner call never suspends on the
result cell's wake signal (`_wait`), and the step resolving `_func`'s
future atomically writes the value into `_value`, issues exactly
`smp::count - 1` wake signals (the `_wait` unit count goes from 0 to
`N - 1`), and resolves the owner's own call with the value directly. -/
theorem owner_success_wake_count {T E : Type} {N : ℕ} (owner : Fin N)
    (gen : Except E T) (v : T) (hgen : gen = .ok v) (s : JState T E N)
    (hs : Reachable owner gen s) :
    s.pcs owner ≠ .waitingWake
    ∧ (∀ s', Step owner gen s s' → s.pcs owner = .computing →
        s.waitUnits = 0 ∧ s'.waitUnits = N - 1 ∧ s'.value = some v
        ∧ s'.pcs owner = .done (.ok v)) := by
  have hInv := reachable_inv hs
  refine ⟨hInv.h_noww, ?_⟩
  intro s' hstep hcomp
  have hOldD : isDone (s.pcs owner) = false := by rw [hcomp]; rfl
  have hgerr : isErr gen = false := by rw [hgen]; rfl
  have hw := hInv.h_wuok hgerr
  rw [hOldD] at hw
  simp only [Bool.false_eq_true, if_false] at hw
  cases hstep with
  | arrive i h =>
    exact absurd h (no_start_of_phase2 hInv (by rw [hcomp]; rfl) i)
  | ownerResume hpc hn =>
    rw [hcomp] at hpc
    cases hpc
  | funcDoneOk w hpc hg =>
    rw [hgen] at hg
    injection hg with hv
    subst hv
    refine ⟨hw.1, ?_, rfl, ?_⟩
    · show s.waitUnits + (N - 1) = N - 1
      omega
    · show Function.update s.pcs owner (PC.done (JResult.ok v)) owner
        = PC.done (JResult.ok v)
      rw [Function.update_same]
  | funcDoneErr e hpc hg =>
    rw [hgen] at hg
    cases hg
  | waiterWake i hi hpc hb hu =>
    exact absurd hu (by omega)
  | waiterBroken i e hi hpc hb he =>
    have hbf : s.waitBroken = false := by
      rw [hInv.h_brk, hOldD]
      rfl
    rw [hb] at hbf
    cases hbf

/-- C8: `_value` goes from empty to filled at most once and never back:
whenever it holds `some v` the generator succeeded with `v`, all `N`
arrivals are in and the generator ran exactly once; every step preserves
a filled `_value` unchanged, and the only step that fills it is the
owner call's success continuation (owner at `computing`, generator
outcome `ok v`), which leaves every other shard's call untouched. -/
theorem value_cell_one_shot {T E : Type} {N : ℕ} (owner : Fin N)
    (gen : Except E T) (s : JState T E N) (hs : Reachable owner gen s) :
    (∀ v, s.value = some v → gen = .ok v ∧ s.arrivals = N ∧ s.funcCalls = 1)
    ∧ (∀ s', Step owner gen s s' →
        (∀ v, s.value = some v → s'.value = some v)
        ∧ (s.value = none → s'.value ≠ none →
            s.pcs owner = .computing
            ∧ ∃ v, gen = .ok v ∧ s'.value = some v
              ∧ ∀ j, j ≠ owner → s'.pcs j = s.pcs j)) := by
  have hInv := reachable_inv hs
  have hval_char : ∀ v, s.value = some v →
      isDone (s.pcs owner) = true ∧ gen = .ok v := by
    intro v hv
    rw [hInv.h_val] at hv
    cases hd : isDone (s.pcs owner) with
    | false =>
      rw [hd] at hv
      simp at hv
    | true =>
      rw [hd] at hv
      simp only [eq_self_iff_true, if_true] at hv
      cases hgen : gen with
      | ok w =>
        rw [hgen] at hv
        simp [okOf] at hv
        refine ⟨rfl, ?_⟩
        rw [hv]
      | error e =>
        rw [hgen] at hv
        simp [okOf] at hv
  refine ⟨?_, ?_⟩
  · intro v hv
    obtain ⟨hd, hg⟩ := hval_char v hv
    have hph := isDone_imp_phase2 hd
    refine ⟨hg, hInv.h_arrN hph, ?_⟩
    rw [hInv.h_fc, hph]
    rfl
  · intro s' hstep
    cases hstep with
    | arrive i h =>
      exact ⟨fun v hv => hv, fun h0 h1 => absurd h0 h1⟩
    | ownerResume hpc hn =>
      exact ⟨fun v hv => hv, fun h0 h1 => absurd h0 h1⟩
    | funcDoneOk v hpc hg =>
      constructor
      · intro w hw
        obtain ⟨hd, _⟩ := hval_char w hw
        rw [hpc] at hd
        simp [isDone] at hd
      · intro hnone hne
        refine ⟨hpc, v, hg, rfl, ?_⟩
        intro j hj
        show Function.update s.pcs owner (PC.done (JResult.ok v)) j = s.pcs j
        exact Function.update_noteq hj _ _
    | funcDoneErr e hpc hg =>
      exact ⟨fun v hv => hv, fun h0 h1 => absurd h0 h1⟩
    | waiterWake i hi hpc hb hu =>
      exact ⟨fun v hv => hv, fun h0 h1 => absurd h0 h1⟩
    | waiterBroken i e hi hpc hb he =>
      exact ⟨fun v hv => hv, fun h0 h1 => absurd h0 h1⟩

/-- C9: on the generator-failure path `_value` is never written: in every
reachable state of an instance whose generator fails, the stored optional
value is still empty — the failure travels only through the exception
channel (broken `_wait` / exceptional future). -/
theorem failure_leaves_value_empty {T E : Type} {N : ℕ} (owner : Fin N)
    (gen : Except E T) (e : E) (hgen : gen = .error e) (s : JState T E N)
    (hs : Reachable owner gen s) : s.value = none := by
  have hInv := reachable_inv hs
  rw [hInv.h_val, hgen]
  simp [okOf]

/-- C10: the generator `make_joinpoint` builds from a callable `f`
invokes `f` exactly once per invocation (the instrumentation counter
advances by exactly one) and yields `futurize_invoke(f)`: for a
plain-value `f`, a ready future holding exactly `f ()`. -/
theorem make_joinpoint_invokes_once {T : Type} (f : Unit → T) (n : ℕ) :
    make_joinpoint (counted f) n = (Future.ready (f ()), n + 1) := rfl

theorem generator_runs_once_after_barrier_witness :
    tA7.funcCalls = 1 ∧ tA7.arrivals = 3 := by
  have h := generator_runs_once_after_barrier owner3 genOk tA7 reachA7
  exact ⟨h.2.2.1 (by decide), h.2.1 (by decide)⟩

theorem success_broadcast_identical_witness : tA7.value = some 42 := by
  have h := success_broadcast_identical owner3 genOk 42 rfl tA7 reachA7
  exact h.2.1 (by decide)

theorem failure_broadcast_identical_witness : tB7.brokenErr = some "boom" := by
  have h := failure_broadcast_identical owner3 genErr "boom" rfl tB7 reachB7
  exact h.2.2.1 (by decide)

theorem no_premature_observation_witness : isDone (tA7.pcs owner3) = true := by
  have h := no_premature_observation owner3 genOk tA7 reachA7
  exact h.2.1 1 (by decide) (by decide)

theorem resolved_state_is_terminal_witness :
    tA7.value = tA5.value ∧ tA7.funcCalls = tA5.funcCalls := by
  have h := resolved_state_is_terminal owner3 genOk tA5 tA7 reachA5 rtgA57
    (by decide)
  exact ⟨h.2.1, h.2.2.2.2⟩

theorem owner_success_wake_count_witness :
    tA4.waitUnits = 0 ∧ tA5.waitUnits = 2 ∧ tA5.value = some 42 := by
  have h := owner_success_wake_count owner3 genOk 42 rfl tA4 reachA4
  have h2 := h.2 tA5 stepA45 (by decide)
  exact ⟨h2.1, h2.2.1, h2.2.2.1⟩

theorem value_cell_one_shot_witness :
    genOk = Except.ok 42 ∧ tA7.arrivals = 3 ∧ tA7.funcCalls = 1 := by
  have h := value_cell_one_shot owner3 genOk tA7 reachA7
  have h1 := h.1 42 (by decide)
  exact ⟨h1.1, h1.2.1, h1.2.2⟩

theorem failure_leaves_value_empty_witness : tB7.value = none :=
  failure_leaves_value_empty owner3 genErr "boom" rfl tB7 reachB7

end utils
